import Mathlib

/-!
Verification development for the SnapBack session manager
(`session_manager.py`).

The Python module manages Windows Explorer "sessions": it captures the set
of open Explorer windows (path, geometry rectangle, show command), persists
them as JSON files, lists and mutates the stored sessions, and restores a
stored session by matching its entries against the live window set,
launching missing windows, polling for their appearance, and applying
geometry.

The embedding below mirrors the source faithfully:

* OS interactions (shell window enumeration, `subprocess.Popen`, the win32
  geometry calls) are nondeterministic from the point of view of the
  program; they are modelled by an environment `Env` that fixes, for every
  enumeration call, the list of live windows it observes, and for every
  launch or geometry-application attempt, whether it succeeds.  Each call
  to `_find_window_by_path` dispatches a fresh shell enumeration, so the
  environment indexes enumerations by a running counter.
* The wall-clock deadline `time.time() < deadline` of the polling loop is
  modelled by a fuel argument: the number of times the time check passes.
  `open_timeout = 0` corresponds to fuel `0`, because the deadline is
  computed before the check and time never decreases.
* File storage is modelled as a map from file keys to optionally stored
  sessions; Python `json` round-tripping is identity on the typed model.
* The restore run additionally records a trace of events (launch attempts,
  polling rounds, matches, geometry applications) used to state the
  temporal claims; the counters of the source are unchanged by this
  instrumentation.
-/

/-- A live Explorer window as produced by `get_all_explorer_windows`:
path, window handle, `[left, top, width, height]` rectangle, show command. -/
structure WindowRecord where
  path : String
  hwnd : Nat
  rect : List Int
  show_cmd : Nat
deriving DecidableEq

/-- One persisted session entry: the dict
`{"path": .., "rect": .., "show_cmd": ..}` stored in a session file. -/
structure SnapEntry where
  path : String
  rect : List Int
  show_cmd : Nat
deriving DecidableEq

/-- The projection performed by `save_session` when it stores a live
window as a session entry (drops the handle). -/
def toEntry (w : WindowRecord) : SnapEntry :=
  ⟨w.path, w.rect, w.show_cmd⟩

/-- A stored session file payload: name, ISO timestamp, entry list. -/
structure Session where
  name : String
  saved_at : String
  windows : List SnapEntry
deriving DecidableEq

/-- Events recorded by the instrumented restore run. -/
inductive Event where
  | launch (path : String) (ok : Bool)
  | pollRound
  | matched (hwnd : Nat)
  | applyGeom (hwnd : Nat) (ok : Bool)
deriving DecidableEq

/-- The nondeterministic environment of one `restore_session` call:
`enums k` is the live window list observed by the `k`-th shell enumeration
(each `_find_window_by_path` call enumerates afresh); `launchOk i` tells
whether the `i`-th `subprocess.Popen` call succeeds; `applyOk j` tells
whether the `j`-th `_apply_geometry` call succeeds. -/
structure Env where
  enums : Nat → List WindowRecord
  launchOk : Nat → Bool
  applyOk : Nat → Bool

/-- The mutable state of a `restore_session` run: next enumeration index,
`used_hwnds`, `to_restore` (matched handle, rect, show command), the
`to_open` / `remaining` list, the skipped counter, and the event trace. -/
structure RState where
  enumIdx : Nat
  used : List Nat
  to_restore : List (Nat × List Int × Nat)
  remaining : List SnapEntry
  skipped : Nat
  trace : List Event
deriving DecidableEq

/-- `_find_window_by_path`: first enumerated window whose path equals the
requested one and whose handle is not yet in `used_hwnds`; `none` when no
such window exists. -/
def find_window_by_path (wins : List WindowRecord) (path : String)
    (used : List Nat) : Option Nat :=
  match wins with
  | [] => none
  | w :: ws =>
      if w.path = path ∧ w.hwnd ∉ used then some w.hwnd
      else find_window_by_path ws path used

/-- The first loop of `restore_session`: walk the snapshot entries; an
empty path is counted as skipped; otherwise probe the current live windows
for an unclaimed match, recording matched entries in `to_restore` (and
claiming the handle) and unmatched ones in `to_open` (`remaining`). -/
def phase1 (env : Env) : List SnapEntry → RState → RState
  | [], st => st
  | e :: es, st =>
      if e.path = "" then
        phase1 env es { st with skipped := st.skipped + 1 }
      else
        match find_window_by_path (env.enums st.enumIdx) e.path st.used with
        | some h =>
            phase1 env es
              { st with
                enumIdx := st.enumIdx + 1
                used := st.used ++ [h]
                to_restore := st.to_restore ++ [(h, e.rect, e.show_cmd)]
                trace := st.trace ++ [Event.matched h] }
        | none =>
            phase1 env es
              { st with
                enumIdx := st.enumIdx + 1
                remaining := st.remaining ++ [e] }

/-- The launch loop of `restore_session`: one `subprocess.Popen` attempt
per `to_open` entry; a failure increments `skipped`.  The `to_open` list
itself is not modified (the source later copies all of it into
`remaining`). -/
def launchAll (env : Env) : List SnapEntry → Nat → RState → RState
  | [], _, st => st
  | e :: es, i, st =>
      if env.launchOk i then
        launchAll env es (i + 1)
          { st with trace := st.trace ++ [Event.launch e.path true] }
      else
        launchAll env es (i + 1)
          { st with
            skipped := st.skipped + 1
            trace := st.trace ++ [Event.launch e.path false] }

/-- One backward sweep of the polling loop body.  The source iterates
`for i in range(len(remaining) - 1, -1, -1)` and pops matched entries, so
it visits every element exactly once, from the last to the first; the
argument list here is `remaining.reverse`, scanned front to back, and
`acc` collects the entries that stay unmatched (in scan order). -/
def pollScan (env : Env) :
    List SnapEntry → RState → List SnapEntry → RState × List SnapEntry
  | [], st, acc => (st, acc)
  | e :: es, st, acc =>
      match find_window_by_path (env.enums st.enumIdx) e.path st.used with
      | some h =>
          pollScan env es
            { st with
              enumIdx := st.enumIdx + 1
              used := st.used ++ [h]
              to_restore := st.to_restore ++ [(h, e.rect, e.show_cmd)]
              trace := st.trace ++ [Event.matched h] } acc
      | none =>
          pollScan env es { st with enumIdx := st.enumIdx + 1 } (acc ++ [e])

/-- One iteration of the polling `while` loop: sweep the remaining
entries backwards; the unmatched ones (collected in reverse scan order)
form the new `remaining`, in their original relative order. -/
def pollRound (env : Env) (st : RState) : RState :=
  let p := pollScan env st.remaining.reverse
    { st with trace := st.trace ++ [Event.pollRound] } []
  { p.1 with remaining := p.2.reverse }

/-- The polling `while` loop, `while remaining and time.time() < deadline`:
fuel counts how many times the time check passes before the deadline. -/
def pollLoop (env : Env) : Nat → RState → RState
  | 0, st => st
  | fuel + 1, st =>
      if st.remaining.isEmpty then st
      else pollLoop env fuel (pollRound env st)

/-- The final loop of `restore_session`: `_apply_geometry` on every
`to_restore` triple, counting successes as restored and failures as
skipped, in order; `j` is the running index of the geometry attempt. -/
def applyAll (env : Env) :
    List (Nat × List Int × Nat) → Nat → Nat × Nat × List Event
  | [], _ => (0, 0, [])
  | t :: rest, j =>
      let r := applyAll env rest (j + 1)
      if env.applyOk j then
        (r.1 + 1, r.2.1, Event.applyGeom t.1 true :: r.2.2)
      else
        (r.1, r.2.1 + 1, Event.applyGeom t.1 false :: r.2.2)

/-- The observable outcome of one `restore_session` call, together with
the internal data the claims speak about: the `(restored, skipped)` pair
returned by the source, the final `used_hwnds` set, the matched
`to_restore` list, the entries still unmatched at the deadline, and the
event trace. -/
structure RestoreResult where
  restored : Nat
  skipped : Nat
  used : List Nat
  to_restore : List (Nat × List Int × Nat)
  timedOut : List SnapEntry
  trace : List Event
deriving DecidableEq

/-- State after the partitioning loop of `restore_session`, starting
from the fresh zeroed counters and empty sets. -/
def stage1 (env : Env) (entries : List SnapEntry) : RState :=
  phase1 env entries ⟨0, [], [], [], 0, []⟩

/-- State after the launch loop (`remaining` holds `to_open`, which the
launch loop does not modify). -/
def stage2 (env : Env) (entries : List SnapEntry) : RState :=
  launchAll env (stage1 env entries).remaining 0 (stage1 env entries)

/-- State after the polling loop. -/
def stage3 (env : Env) (entries : List SnapEntry) (fuel : Nat) : RState :=
  pollLoop env fuel (stage2 env entries)

/-- `restore_session` on a loaded snapshot entry list: partition against
the live windows, launch all missing windows, poll until the remaining
list empties or the deadline passes, count the leftovers as skipped, then
apply geometry to every matched window. -/
def restore_session (env : Env) (entries : List SnapEntry) (fuel : Nat) :
    RestoreResult :=
  { restored := (applyAll env (stage3 env entries fuel).to_restore 0).1
    skipped := (stage3 env entries fuel).skipped +
      (stage3 env entries fuel).remaining.length +
      (applyAll env (stage3 env entries fuel).to_restore 0).2.1
    used := (stage3 env entries fuel).used
    to_restore := (stage3 env entries fuel).to_restore
    timedOut := (stage3 env entries fuel).remaining
    trace := (stage3 env entries fuel).trace ++
      (applyAll env (stage3 env entries fuel).to_restore 0).2.2 }

/-- Number of snapshot entries with an empty path (`if not path` in the
source counts these as skipped). -/
def countEmptyPath (es : List SnapEntry) : Nat :=
  es.countP (fun e => decide (e.path = ""))

/-- Number of snapshot entries with a non-empty path. -/
def countNonEmptyPath (es : List SnapEntry) : Nat :=
  es.countP (fun e => decide (e.path ≠ ""))

/-- Failed launch attempts recorded in a trace. -/
def countLaunchFails (t : List Event) : Nat :=
  t.countP (fun e => match e with | Event.launch _ ok => !ok | _ => false)

/-- Failed geometry applications recorded in a trace. -/
def countApplyFails (t : List Event) : Nat :=
  t.countP (fun e => match e with | Event.applyGeom _ ok => !ok | _ => false)

/-- The sessions directory, modelled as a map from file key (the
sanitized-name or timestamp filename) to the stored session, `none`
meaning no such file. -/
def Store : Type := String → Option Session

/-- Writing a session file (`json.dump` to `filepath`, overwriting). -/
def store_write (st : Store) (key : String) (s : Session) : Store :=
  fun k => if k = key then some s else st k

/-- `delete_session`: removing a file, a no-op when it does not exist. -/
def delete_session (st : Store) (key : String) : Store :=
  fun k => if k = key then none else st k

/-- `load_session`: reading a session file; `none` models the
`FileNotFoundError` (NotFound) raised for a missing key. -/
def load_session (st : Store) (key : String) : Option Session :=
  st key

/-- The deduplication loop of `save_session`: walk the enumerated windows
keeping the first occurrence of each path (`seen` is the set of already
seen paths). -/
def dedupGo : List WindowRecord → List String → List SnapEntry
  | [], _ => []
  | w :: ws, seen =>
      if w.path ∈ seen then dedupGo ws seen
      else toEntry w :: dedupGo ws (w.path :: seen)

/-- The entry list that `save_session` persists for an enumerated live
window list. -/
def save_entries (ws : List WindowRecord) : List SnapEntry :=
  dedupGo ws []

/-- Character class accepted by the filename sanitizer of `save_session`:
`c.isalnum() or c in (' ', '-', '_')`. -/
def allowedChar (c : Char) : Bool :=
  c.isAlphanum || c = ' ' || c = '-' || c = '_'

/-- Python `str.strip()` on a character list: drop whitespace from both
ends.  (On the sanitized alphabet the only whitespace character is the
space, where Python and Lean whitespace predicates agree.) -/
def stripChars (cs : List Char) : List Char :=
  ((cs.dropWhile Char.isWhitespace).reverse.dropWhile Char.isWhitespace).reverse

/-- `safe_name` in `save_session`: keep only allowed characters, then
strip surrounding whitespace. -/
def sanitizeName (name : String) : String :=
  String.mk (stripChars (name.data.filter allowedChar))

/-- The session file key produced by `save_session` for a user-given
name: `f"{safe_name}.json"`. -/
def filenameFor (name : String) : String :=
  sanitizeName name ++ ".json"

/-- `save_session` with a user-given name against a store: build the
deduplicated payload and overwrite the file at the sanitized key. -/
def save_session (st : Store) (name saved_at : String)
    (ws : List WindowRecord) : Store :=
  store_write st (filenameFor name) ⟨name, saved_at, save_entries ws⟩

/-- One listing row: `{"filepath", "name", "saved_at", "window_count",
"tab_count"}`. -/
structure SessionSummary where
  key : String
  name : String
  saved_at : String
  window_count : Nat
  tab_count : Nat
deriving DecidableEq

/-- The summary `list_sessions` builds for one parsed session file:
`window_count = len(set(w["path"] for w in windows))`,
`tab_count = len(windows)`. -/
def summarize (key : String) (s : Session) : SessionSummary :=
  ⟨key, s.name, s.saved_at, (s.windows.map SnapEntry.path).dedup.length,
    s.windows.length⟩

/-- Descending stable insertion by `saved_at` (the source sorts the
summary list by `saved_at` with `reverse=True`). -/
def insertBySavedAt (x : SessionSummary) :
    List SessionSummary → List SessionSummary
  | [] => [x]
  | y :: ys =>
      if x.saved_at ≤ y.saved_at then y :: insertBySavedAt x ys
      else x :: y :: ys

/-- Sort summaries by `saved_at`, newest first. -/
def sortBySavedAt : List SessionSummary → List SessionSummary
  | [] => []
  | x :: xs => insertBySavedAt x (sortBySavedAt xs)

/-- `list_sessions` over the directory contents: each file either parses
to a session (`some`) or fails to parse (`none`, logged and skipped);
parsed files are summarized and sorted by `saved_at` descending. -/
def list_sessions (files : List (String × Option Session)) :
    List SessionSummary :=
  sortBySavedAt (files.filterMap (fun kv => kv.2.map (summarize kv.1)))

/-- `remove_path_from_session`: load the session (`none` when the file is
missing), drop every entry whose path equals `path_to_remove`; if nothing
is left delete the file and return `false`, otherwise write the reduced
session back and return `true`. -/
def remove_path_from_session (st : Store) (key path_to_remove : String) :
    Option (Store × Bool) :=
  match st key with
  | none => none
  | some s =>
      let updated := s.windows.filter (fun w => w.path ≠ path_to_remove)
      if updated.isEmpty then some (delete_session st key, false)
      else some (store_write st key { s with windows := updated }, true)

/-- `add_path_to_session`: load the session; return `false` without any
write when the path is already present; otherwise append an entry with
the given or defaulted rect (`[100, 100, 1000, 600]`) and show command
(`1`, SW_SHOWNORMAL), write the file back and return `true`. -/
def add_path_to_session (st : Store) (key new_path : String)
    (rect : Option (List Int)) (show_cmd : Option Nat) :
    Option (Store × Bool) :=
  match st key with
  | none => none
  | some s =>
      if s.windows.any (fun w => w.path = new_path) then some (st, false)
      else
        some (store_write st key
          { s with windows :=
              s.windows ++
                [⟨new_path, rect.getD [100, 100, 1000, 600],
                  show_cmd.getD 1⟩] }, true)

/-- Modelled from the spec (capture deduplication, §4.2): first
occurrence of each path wins and insertion order is preserved.  This is
the specification-side definition that the code-side `save_entries` is
compared against. -/
def firstOccurrenceDedup : List WindowRecord → List SnapEntry
  | [] => []
  | w :: ws =>
      toEntry w :: firstOccurrenceDedup (ws.filter (fun v => v.path ≠ w.path))
termination_by l => l.length
decreasing_by
  simp only [List.length_cons]
  exact Nat.lt_succ_of_le (List.length_filter_le _ _)

/-- Handle hygiene invariant of a restore state: the claimed handle set
has no duplicates, every matched handle is claimed, and the matched
handles are pairwise distinct. -/
def HInv (st : RState) : Prop :=
  st.used.Nodup ∧ (∀ x ∈ st.to_restore, x.1 ∈ st.used) ∧
    (st.to_restore.map Prod.fst).Nodup

/-- Matching evidence invariant: every matched triple has a corresponding
`matched` event already in the trace. -/
def MInv (st : RState) : Prop :=
  ∀ x ∈ st.to_restore, Event.matched x.1 ∈ st.trace

/-- Environment with no live windows where every launch and geometry
call succeeds. -/
def envEmpty : Env :=
  ⟨fun _ => [], fun _ => true, fun _ => true⟩

/-- Environment with no live windows where every launch fails. -/
def envLaunchFail : Env :=
  ⟨fun _ => [], fun _ => false, fun _ => true⟩

/-- Environment where every enumeration sees one live window with path
`"p"` and handle `7`, and everything succeeds. -/
def envLiveP : Env :=
  ⟨fun _ => [⟨"p", 7, [0, 0, 1, 1], 1⟩], fun _ => true, fun _ => true⟩

/-- A snapshot entry with an empty path. -/
def entryEmpty : SnapEntry := ⟨"", [0, 0, 0, 0], 1⟩

/-- A snapshot entry with path `"p"`. -/
def entryP : SnapEntry := ⟨"p", [10, 10, 800, 600], 1⟩

/-- A snapshot entry with path `"a"`. -/
def entryA : SnapEntry := ⟨"a", [0, 0, 800, 600], 1⟩

/-- A snapshot entry with path `"b"`. -/
def entryB : SnapEntry := ⟨"b", [100, 100, 1024, 768], 3⟩

/-- A stored session with a single entry at path `"p"`. -/
def sessP : Session := ⟨"s", "2024-01-01T00:00:00", [entryP]⟩

/-- A stored session with entries at paths `"a"`, `"b"`, `"a"`. -/
def sessABA : Session :=
  ⟨"aba", "2024-02-02T00:00:00", [entryA, entryB, ⟨"a", [5, 5, 5, 5], 1⟩]⟩

/-- A one-file store holding `sessP` under key `"s.json"`. -/
def storeP : Store :=
  fun k => if k = "s.json" then some sessP else none

/-! ### Lemmas about the window search -/

lemma find_not_used {wins : List WindowRecord} {p : String} {used : List Nat}
    {h : Nat} (hf : find_window_by_path wins p used = some h) : h ∉ used := by
  induction wins with
  | nil => simp [find_window_by_path] at hf
  | cons w ws ih =>
      rw [find_window_by_path] at hf
      split at hf
      · rename_i hc
        cases hf
        exact hc.2
      · exact ih hf

lemma find_eq_none {wins : List WindowRecord} {p : String} {used : List Nat}
    (hw : ∀ w ∈ wins, w.path ≠ p) : find_window_by_path wins p used = none := by
  induction wins with
  | nil => rfl
  | cons w ws ih =>
      rw [find_window_by_path]
      have hwp : w.path ≠ p := hw w (by simp)
      rw [if_neg (by simp [hwp])]
      exact ih (fun v hv => hw v (by simp [hv]))

/-! ### Lemmas about the partitioning loop -/

lemma phase1_skipped (env : Env) (es : List SnapEntry) (st : RState) :
    (phase1 env es st).skipped = st.skipped + countEmptyPath es := by
  induction es generalizing st with
  | nil => simp [phase1, countEmptyPath]
  | cons e es ih =>
      by_cases hp : e.path = ""
      · rw [phase1, if_pos hp, ih]
        simp [countEmptyPath, List.countP_cons, hp]
        omega
      · rw [phase1, if_neg hp]
        cases hfind : find_window_by_path (env.enums st.enumIdx) e.path st.used with
        | some h => simp [ih, countEmptyPath, List.countP_cons, hp]
        | none => simp [ih, countEmptyPath, List.countP_cons, hp]

lemma phase1_count (env : Env) (es : List SnapEntry) (st : RState) :
    (phase1 env es st).to_restore.length + (phase1 env es st).remaining.length
      = st.to_restore.length + st.remaining.length + countNonEmptyPath es := by
  induction es generalizing st with
  | nil => simp [phase1, countNonEmptyPath]
  | cons e es ih =>
      by_cases hp : e.path = ""
      · rw [phase1, if_pos hp, ih]
        simp [countNonEmptyPath, List.countP_cons, hp]
      · rw [phase1, if_neg hp]
        cases hfind : find_window_by_path (env.enums st.enumIdx) e.path st.used with
        | some h =>
            simp [ih, countNonEmptyPath, List.countP_cons, hp]
            omega
        | none =>
            simp [ih, countNonEmptyPath, List.countP_cons, hp]
            omega

lemma phase1_trace (env : Env) (es : List SnapEntry) (st : RState) :
    ∃ t, (phase1 env es st).trace = st.trace ++ t ∧
      ∀ x ∈ t, ∃ h, x = Event.matched h := by
  induction es generalizing st with
  | nil => exact ⟨[], by simp [phase1], by simp⟩
  | cons e es ih =>
      by_cases hp : e.path = ""
      · obtain ⟨t, ht, hall⟩ := ih { st with skipped := st.skipped + 1 }
        rw [phase1, if_pos hp]
        exact ⟨t, ht, hall⟩
      · cases hfind : find_window_by_path (env.enums st.enumIdx) e.path st.used with
        | some h =>
            obtain ⟨t, ht, hall⟩ := ih
              { st with
                enumIdx := st.enumIdx + 1
                used := st.used ++ [h]
                to_restore := st.to_restore ++ [(h, e.rect, e.show_cmd)]
                trace := st.trace ++ [Event.matched h] }
            refine ⟨Event.matched h :: t, ?_, ?_⟩
            · rw [phase1, if_neg hp, hfind, ht]
              simp
            · intro x hx
              rcases List.mem_cons.mp hx with hx | hx
              · exact ⟨h, hx⟩
              · exact hall x hx
        | none =>
            obtain ⟨t, ht, hall⟩ := ih
              { st with
                enumIdx := st.enumIdx + 1
                remaining := st.remaining ++ [e] }
            rw [phase1, if_neg hp, hfind]
            exact ⟨t, ht, hall⟩

lemma phase1_HInv (env : Env) (es : List SnapEntry) (st : RState)
    (hst : HInv st) : HInv (phase1 env es st) := by
  induction es generalizing st with
  | nil => simpa [phase1] using hst
  | cons e es ih =>
      by_cases hp : e.path = ""
      · rw [phase1, if_pos hp]
        exact ih _ hst
      · cases hfind : find_window_by_path (env.enums st.enumIdx) e.path st.used with
        | some h =>
            rw [phase1, if_neg hp, hfind]
            refine ih _ ?_
            obtain ⟨hu, hsub, hnd⟩ := hst
            have hnew : h ∉ st.used := find_not_used hfind
            refine ⟨?_, ?_, ?_⟩
            · simp [List.nodup_append, hu, List.disjoint_singleton, hnew]
            · intro x hx
              rcases List.mem_append.mp hx with hx | hx
              · exact List.mem_append.mpr (Or.inl (hsub x hx))
              · simp at hx
                simp [hx]
            · have hnotin : h ∉ st.to_restore.map Prod.fst := by
                intro hc
                obtain ⟨x, hx1, hx2⟩ := List.mem_map.mp hc
                exact hnew (hx2 ▸ hsub x hx1)
              simp [List.map_append, List.nodup_append, hnd,
                List.disjoint_singleton, hnotin]
        | none =>
            rw [phase1, if_neg hp, hfind]
            exact ih _ hst

lemma phase1_MInv (env : Env) (es : List SnapEntry) (st : RState)
    (hst : MInv st) : MInv (phase1 env es st) := by
  induction es generalizing st with
  | nil => simpa [phase1] using hst
  | cons e es ih =>
      by_cases hp : e.path = ""
      · rw [phase1, if_pos hp]
        exact ih _ hst
      · cases hfind : find_window_by_path (env.enums st.enumIdx) e.path st.used with
        | some h =>
            rw [phase1, if_neg hp, hfind]
            refine ih _ ?_
            intro x hx
            rcases List.mem_append.mp hx with hx | hx
            · exact List.mem_append.mpr (Or.inl (hst x hx))
            · simp at hx
              simp [hx]
        | none =>
            rw [phase1, if_neg hp, hfind]
            exact ih _ hst

/-! ### Counting helpers for traces -/

lemma countLaunchFails_append (a b : List Event) :
    countLaunchFails (a ++ b) = countLaunchFails a + countLaunchFails b :=
  List.countP_append _ a b

lemma countApplyFails_append (a b : List Event) :
    countApplyFails (a ++ b) = countApplyFails a + countApplyFails b :=
  List.countP_append _ a b

lemma countLaunchFails_of_matched {t : List Event}
    (h : ∀ x ∈ t, ∃ hw, x = Event.matched hw) : countLaunchFails t = 0 := by
  refine List.countP_eq_zero.mpr ?_
  intro a ha
  obtain ⟨hw, rfl⟩ := h a ha
  simp

lemma countApplyFails_of_no_apply {t : List Event}
    (h : ∀ x ∈ t, ∀ hw ok, x ≠ Event.applyGeom hw ok) :
    countApplyFails t = 0 := by
  refine List.countP_eq_zero.mpr ?_
  intro a ha
  cases a with
  | launch p ok => simp
  | pollRound => simp
  | matched hw => simp
  | applyGeom hw ok => exact absurd rfl (h _ ha hw ok)

/-! ### Lemmas about the launch loop -/

lemma launchAll_fields (env : Env) (es : List SnapEntry) (i : Nat)
    (st : RState) :
    (launchAll env es i st).remaining = st.remaining ∧
      (launchAll env es i st).to_restore = st.to_restore ∧
      (launchAll env es i st).used = st.used ∧
      (launchAll env es i st).enumIdx = st.enumIdx := by
  induction es generalizing i st with
  | nil => simp [launchAll]
  | cons e es ih =>
      cases hl : env.launchOk i with
      | true => simpa [launchAll, hl] using ih (i + 1) _
      | false => simpa [launchAll, hl] using ih (i + 1) _

lemma launchAll_skipped (env : Env) (es : List SnapEntry) (i : Nat)
    (st : RState) :
    (launchAll env es i st).skipped + countLaunchFails st.trace
      = st.skipped + countLaunchFails (launchAll env es i st).trace := by
  induction es generalizing i st with
  | nil => simp [launchAll]
  | cons e es ih =>
      cases hl : env.launchOk i with
      | true =>
          have h2 := ih (i + 1)
            { st with trace := st.trace ++ [Event.launch e.path true] }
          simp only [launchAll, hl, if_true]
          simp only [countLaunchFails_append] at h2
          have hone : countLaunchFails [Event.launch e.path true] = 0 := rfl
          rw [hone] at h2
          omega
      | false =>
          have h2 := ih (i + 1)
            { st with
              skipped := st.skipped + 1
              trace := st.trace ++ [Event.launch e.path false] }
          simp only [launchAll, hl, Bool.false_eq_true, if_false]
          simp only [countLaunchFails_append] at h2
          have hone : countLaunchFails [Event.launch e.path false] = 1 := rfl
          rw [hone] at h2
          omega

lemma launchAll_trace (env : Env) (es : List SnapEntry) (i : Nat)
    (st : RState) :
    ∃ t, (launchAll env es i st).trace = st.trace ++ t ∧
      ∀ x ∈ t, ∃ p ok, x = Event.launch p ok := by
  induction es generalizing i st with
  | nil => exact ⟨[], by simp [launchAll], by simp⟩
  | cons e es ih =>
      cases hl : env.launchOk i with
      | true =>
          obtain ⟨t, ht, hall⟩ := ih (i + 1)
            { st with trace := st.trace ++ [Event.launch e.path true] }
          refine ⟨Event.launch e.path true :: t, ?_, ?_⟩
          · rw [launchAll, hl]
            simp only [if_true]
            rw [ht]
            simp
          · intro x hx
            rcases List.mem_cons.mp hx with hx | hx
            · exact ⟨e.path, true, hx⟩
            · exact hall x hx
      | false =>
          obtain ⟨t, ht, hall⟩ := ih (i + 1)
            { st with
              skipped := st.skipped + 1
              trace := st.trace ++ [Event.launch e.path false] }
          refine ⟨Event.launch e.path false :: t, ?_, ?_⟩
          · rw [launchAll, hl]
            simp only [Bool.false_eq_true, if_false]
            rw [ht]
            simp
          · intro x hx
            rcases List.mem_cons.mp hx with hx | hx
            · exact ⟨e.path, false, hx⟩
            · exact hall x hx

lemma launchAll_all_ok (env : Env) (es : List SnapEntry) (i : Nat)
    (st : RState) (hok : ∀ j, env.launchOk j = true) :
    (launchAll env es i st).skipped = st.skipped := by
  induction es generalizing i st with
  | nil => simp [launchAll]
  | cons e es ih =>
      rw [launchAll, hok i]
      simp only [if_true]
      exact ih (i + 1) _

/-! ### Lemmas about the polling loop -/

lemma pollScan_count (env : Env) (es : List SnapEntry) (st : RState)
    (acc : List SnapEntry) :
    (pollScan env es st acc).1.to_restore.length +
        (pollScan env es st acc).2.length
      = st.to_restore.length + acc.length + es.length := by
  induction es generalizing st acc with
  | nil => simp [pollScan]
  | cons e es ih =>
      rw [pollScan]
      cases hfind : find_window_by_path (env.enums st.enumIdx) e.path st.used with
      | some h =>
          rw [ih]
          simp
          omega
      | none =>
          rw [ih]
          simp
          omega

lemma pollScan_fields (env : Env) (es : List SnapEntry) (st : RState)
    (acc : List SnapEntry) :
    (pollScan env es st acc).1.skipped = st.skipped ∧
      (pollScan env es st acc).1.remaining = st.remaining := by
  induction es generalizing st acc with
  | nil => simp [pollScan]
  | cons e es ih =>
      rw [pollScan]
      cases hfind : find_window_by_path (env.enums st.enumIdx) e.path st.used with
      | some h => exact ih _ _
      | none => exact ih _ _

lemma pollScan_trace (env : Env) (es : List SnapEntry) (st : RState)
    (acc : List SnapEntry) :
    ∃ t, (pollScan env es st acc).1.trace = st.trace ++ t ∧
      ∀ x ∈ t, ∃ h, x = Event.matched h := by
  induction es generalizing st acc with
  | nil => exact ⟨[], by simp [pollScan], by simp⟩
  | cons e es ih =>
      cases hfind : find_window_by_path (env.enums st.enumIdx) e.path st.used with
      | some h =>
          obtain ⟨t, ht, hall⟩ := ih
            { st with
              enumIdx := st.enumIdx + 1
              used := st.used ++ [h]
              to_restore := st.to_restore ++ [(h, e.rect, e.show_cmd)]
              trace := st.trace ++ [Event.matched h] } acc
          refine ⟨Event.matched h :: t, ?_, ?_⟩
          · rw [pollScan, hfind, ht]
            simp
          · intro x hx
            rcases List.mem_cons.mp hx with hx | hx
            · exact ⟨h, hx⟩
            · exact hall x hx
      | none =>
          obtain ⟨t, ht, hall⟩ := ih
            { st with enumIdx := st.enumIdx + 1 } (acc ++ [e])
          rw [pollScan, hfind]
          exact ⟨t, ht, hall⟩

lemma pollScan_HInv (env : Env) (es : List SnapEntry) (st : RState)
    (acc : List SnapEntry) (hst : HInv st) : HInv (pollScan env es st acc).1 := by
  induction es generalizing st acc with
  | nil => simpa [pollScan] using hst
  | cons e es ih =>
      rw [pollScan]
      cases hfind : find_window_by_path (env.enums st.enumIdx) e.path st.used with
      | some h =>
          refine ih _ _ ?_
          obtain ⟨hu, hsub, hnd⟩ := hst
          have hnew : h ∉ st.used := find_not_used hfind
          refine ⟨?_, ?_, ?_⟩
          · simp [List.nodup_append, hu, List.disjoint_singleton, hnew]
          · intro x hx
            rcases List.mem_append.mp hx with hx | hx
            · exact List.mem_append.mpr (Or.inl (hsub x hx))
            · simp at hx
              simp [hx]
          · have hnotin : h ∉ st.to_restore.map Prod.fst := by
              intro hc
              obtain ⟨x, hx1, hx2⟩ := List.mem_map.mp hc
              exact hnew (hx2 ▸ hsub x hx1)
            simp [List.map_append, List.nodup_append, hnd,
              List.disjoint_singleton, hnotin]
      | none => exact ih _ _ hst

lemma pollScan_MInv (env : Env) (es : List SnapEntry) (st : RState)
    (acc : List SnapEntry) (hst : MInv st) : MInv (pollScan env es st acc).1 := by
  induction es generalizing st acc with
  | nil => simpa [pollScan] using hst
  | cons e es ih =>
      rw [pollScan]
      cases hfind : find_window_by_path (env.enums st.enumIdx) e.path st.used with
      | some h =>
          refine ih _ _ ?_
          intro x hx
          rcases List.mem_append.mp hx with hx | hx
          · exact List.mem_append.mpr (Or.inl (hst x hx))
          · simp at hx
            simp [hx]
      | none => exact ih _ _ hst

lemma pollRound_count (env : Env) (st : RState) :
    (pollRound env st).to_restore.length + (pollRound env st).remaining.length
      = st.to_restore.length + st.remaining.length := by
  rw [pollRound]
  have h := pollScan_count env st.remaining.reverse
    { st with trace := st.trace ++ [Event.pollRound] } []
  simp at h ⊢
  omega

lemma pollRound_skipped (env : Env) (st : RState) :
    (pollRound env st).skipped = st.skipped := by
  rw [pollRound]
  have h := (pollScan_fields env st.remaining.reverse
    { st with trace := st.trace ++ [Event.pollRound] } []).1
  simpa using h

lemma pollRound_trace (env : Env) (st : RState) :
    ∃ t, (pollRound env st).trace = st.trace ++ t ∧
      ∀ x ∈ t, (∃ h, x = Event.matched h) ∨ x = Event.pollRound := by
  rw [pollRound]
  obtain ⟨t, ht, hall⟩ := pollScan_trace env st.remaining.reverse
    { st with trace := st.trace ++ [Event.pollRound] } []
  refine ⟨Event.pollRound :: t, ?_, ?_⟩
  · simpa using ht
  · intro x hx
    rcases List.mem_cons.mp hx with hx | hx
    · exact Or.inr hx
    · exact Or.inl (hall x hx)

lemma pollRound_HInv (env : Env) (st : RState) (hst : HInv st) :
    HInv (pollRound env st) := by
  rw [pollRound]
  have h := pollScan_HInv env st.remaining.reverse
    { st with trace := st.trace ++ [Event.pollRound] } [] (by exact hst)
  exact h

lemma pollRound_MInv (env : Env) (st : RState) (hst : MInv st) :
    MInv (pollRound env st) := by
  rw [pollRound]
  refine pollScan_MInv env st.remaining.reverse
    { st with trace := st.trace ++ [Event.pollRound] } [] ?_
  intro x hx
  exact List.mem_append.mpr (Or.inl (hst x hx))

lemma pollLoop_count (env : Env) (fuel : Nat) (st : RState) :
    (pollLoop env fuel st).to_restore.length +
        (pollLoop env fuel st).remaining.length
      = st.to_restore.length + st.remaining.length := by
  induction fuel generalizing st with
  | zero => simp [pollLoop]
  | succ n ih =>
      rw [pollLoop]
      by_cases hr : st.remaining.isEmpty
      · rw [if_pos hr]
      · rw [if_neg hr, ih, pollRound_count]

lemma pollLoop_skipped (env : Env) (fuel : Nat) (st : RState) :
    (pollLoop env fuel st).skipped = st.skipped := by
  induction fuel generalizing st with
  | zero => simp [pollLoop]
  | succ n ih =>
      rw [pollLoop]
      by_cases hr : st.remaining.isEmpty
      · rw [if_pos hr]
      · rw [if_neg hr, ih, pollRound_skipped]

lemma pollLoop_trace (env : Env) (fuel : Nat) (st : RState) :
    ∃ t, (pollLoop env fuel st).trace = st.trace ++ t ∧
      ∀ x ∈ t, (∃ h, x = Event.matched h) ∨ x = Event.pollRound := by
  induction fuel generalizing st with
  | zero => exact ⟨[], by simp [pollLoop], by simp⟩
  | succ n ih =>
      rw [pollLoop]
      by_cases hr : st.remaining.isEmpty
      · rw [if_pos hr]
        exact ⟨[], by simp, by simp⟩
      · rw [if_neg hr]
        obtain ⟨t1, ht1, hall1⟩ := pollRound_trace env st
        obtain ⟨t2, ht2, hall2⟩ := ih (pollRound env st)
        refine ⟨t1 ++ t2, ?_, ?_⟩
        · rw [ht2, ht1, List.append_assoc]
        · intro x hx
          rcases List.mem_append.mp hx with hx | hx
          · exact hall1 x hx
          · exact hall2 x hx

lemma pollLoop_HInv (env : Env) (fuel : Nat) (st : RState) (hst : HInv st) :
    HInv (pollLoop env fuel st) := by
  induction fuel generalizing st with
  | zero => simpa [pollLoop] using hst
  | succ n ih =>
      rw [pollLoop]
      by_cases hr : st.remaining.isEmpty
      · rw [if_pos hr]
        exact hst
      · rw [if_neg hr]
        exact ih _ (pollRound_HInv env st hst)

lemma pollLoop_MInv (env : Env) (fuel : Nat) (st : RState) (hst : MInv st) :
    MInv (pollLoop env fuel st) := by
  induction fuel generalizing st with
  | zero => simpa [pollLoop] using hst
  | succ n ih =>
      rw [pollLoop]
      by_cases hr : st.remaining.isEmpty
      · rw [if_pos hr]
        exact hst
      · rw [if_neg hr]
        exact ih _ (pollRound_MInv env st hst)

/-! ### Lemmas about the geometry application loop -/

lemma applyAll_count (env : Env) (l : List (Nat × List Int × Nat)) (j : Nat) :
    (applyAll env l j).1 + (applyAll env l j).2.1 = l.length := by
  induction l generalizing j with
  | nil => simp [applyAll]
  | cons x l ih =>
      rw [applyAll]
      cases ha : env.applyOk j with
      | true =>
          simp only [if_true]
          have := ih (j + 1)
          simp
          omega
      | false =>
          simp only [Bool.false_eq_true, if_false]
          have := ih (j + 1)
          simp
          omega

lemma applyAll_shape (env : Env) (l : List (Nat × List Int × Nat)) (j : Nat) :
    ∀ x ∈ (applyAll env l j).2.2,
      ∃ h ok, x = Event.applyGeom h ok ∧ ∃ r sc, (h, r, sc) ∈ l := by
  induction l generalizing j with
  | nil => simp [applyAll]
  | cons y l ih =>
      intro x hx
      rw [applyAll] at hx
      cases ha : env.applyOk j with
      | true =>
          rw [ha] at hx
          simp only [if_true] at hx
          rcases List.mem_cons.mp hx with hx | hx
          · exact ⟨y.1, true, hx, y.2.1, y.2.2, by simp⟩
          · obtain ⟨h, ok, hxe, r, sc, hmem⟩ := ih (j + 1) x hx
            exact ⟨h, ok, hxe, r, sc, by simp [hmem]⟩
      | false =>
          rw [ha] at hx
          simp only [Bool.false_eq_true, if_false] at hx
          rcases List.mem_cons.mp hx with hx | hx
          · exact ⟨y.1, false, hx, y.2.1, y.2.2, by simp⟩
          · obtain ⟨h, ok, hxe, r, sc, hmem⟩ := ih (j + 1) x hx
            exact ⟨h, ok, hxe, r, sc, by simp [hmem]⟩

lemma applyAll_launchFails (env : Env) (l : List (Nat × List Int × Nat))
    (j : Nat) : countLaunchFails (applyAll env l j).2.2 = 0 := by
  refine List.countP_eq_zero.mpr ?_
  intro a ha
  obtain ⟨h, ok, rfl, _⟩ := applyAll_shape env l j a ha
  simp

lemma applyAll_applyFails (env : Env) (l : List (Nat × List Int × Nat))
    (j : Nat) : countApplyFails (applyAll env l j).2.2 = (applyAll env l j).2.1 := by
  induction l generalizing j with
  | nil => simp [applyAll, countApplyFails]
  | cons y l ih =>
      rw [applyAll]
      cases ha : env.applyOk j with
      | true =>
          simp only [if_true]
          have := ih (j + 1)
          simp only [countApplyFails, List.countP_cons] at this ⊢
          simp
          omega
      | false =>
          simp only [Bool.false_eq_true, if_false]
          have := ih (j + 1)
          simp only [countApplyFails, List.countP_cons] at this ⊢
          simp
          omega

/-! ### Stage summaries of `restore_session` -/

lemma countLaunchFails_of_poll_matched {t : List Event}
    (h : ∀ x ∈ t, (∃ hw, x = Event.matched hw) ∨ x = Event.pollRound) :
    countLaunchFails t = 0 := by
  refine List.countP_eq_zero.mpr ?_
  intro a ha
  rcases h a ha with ⟨hw, rfl⟩ | rfl <;> simp

lemma count_empty_add_nonEmpty (es : List SnapEntry) :
    countEmptyPath es + countNonEmptyPath es = es.length := by
  induction es with
  | nil => rfl
  | cons e es ih =>
      simp only [countEmptyPath, countNonEmptyPath, List.countP_cons] at ih ⊢
      by_cases hp : e.path = ""
      · have h1 : (decide (e.path = "")) = true := by simpa using hp
        have h2 : (decide (e.path ≠ "")) = false := by simpa using hp
        rw [h1, h2]
        simp at ih ⊢
        omega
      · have h1 : (decide (e.path = "")) = false := by simpa using hp
        have h2 : (decide (e.path ≠ "")) = true := by simpa using hp
        rw [h1, h2]
        simp at ih ⊢
        omega

lemma stage1_skipped (env : Env) (entries : List SnapEntry) :
    (stage1 env entries).skipped = countEmptyPath entries := by
  rw [stage1, phase1_skipped]
  simp

lemma stage1_count (env : Env) (entries : List SnapEntry) :
    (stage1 env entries).to_restore.length + (stage1 env entries).remaining.length
      = countNonEmptyPath entries := by
  rw [stage1, phase1_count]
  simp

lemma stage1_trace (env : Env) (entries : List SnapEntry) :
    ∀ x ∈ (stage1 env entries).trace, ∃ h, x = Event.matched h := by
  obtain ⟨t, ht, hall⟩ := phase1_trace env entries ⟨0, [], [], [], 0, []⟩
  rw [stage1, ht]
  simpa using hall

lemma stage2_fields (env : Env) (entries : List SnapEntry) :
    (stage2 env entries).remaining = (stage1 env entries).remaining ∧
      (stage2 env entries).to_restore = (stage1 env entries).to_restore ∧
      (stage2 env entries).used = (stage1 env entries).used := by
  obtain ⟨h1, h2, h3, _⟩ := launchAll_fields env
    (stage1 env entries).remaining 0 (stage1 env entries)
  exact ⟨h1, h2, h3⟩

lemma stage2_trace_ext (env : Env) (entries : List SnapEntry) :
    ∃ t, (stage2 env entries).trace = (stage1 env entries).trace ++ t ∧
      ∀ x ∈ t, ∃ p ok, x = Event.launch p ok :=
  launchAll_trace env (stage1 env entries).remaining 0 (stage1 env entries)

lemma stage2_skipped (env : Env) (entries : List SnapEntry) :
    (stage2 env entries).skipped
      = countEmptyPath entries + countLaunchFails (stage2 env entries).trace := by
  have h := launchAll_skipped env (stage1 env entries).remaining 0
    (stage1 env entries)
  have h0 : countLaunchFails (stage1 env entries).trace = 0 :=
    countLaunchFails_of_matched (stage1_trace env entries)
  have h1 := stage1_skipped env entries
  rw [stage2]
  omega

lemma stage3_skipped (env : Env) (entries : List SnapEntry) (fuel : Nat) :
    (stage3 env entries fuel).skipped
      = countEmptyPath entries + countLaunchFails (stage2 env entries).trace := by
  rw [stage3, pollLoop_skipped, stage2_skipped]

lemma stage3_count (env : Env) (entries : List SnapEntry) (fuel : Nat) :
    (stage3 env entries fuel).to_restore.length +
        (stage3 env entries fuel).remaining.length
      = countNonEmptyPath entries := by
  rw [stage3, pollLoop_count]
  rw [(stage2_fields env entries).1, (stage2_fields env entries).2.1]
  exact stage1_count env entries

lemma stage3_trace_ext (env : Env) (entries : List SnapEntry) (fuel : Nat) :
    ∃ t, (stage3 env entries fuel).trace = (stage2 env entries).trace ++ t ∧
      ∀ x ∈ t, (∃ h, x = Event.matched h) ∨ x = Event.pollRound :=
  pollLoop_trace env fuel (stage2 env entries)

lemma stage3_launchFails (env : Env) (entries : List SnapEntry) (fuel : Nat) :
    countLaunchFails (stage3 env entries fuel).trace
      = countLaunchFails (stage2 env entries).trace := by
  obtain ⟨t, ht, hall⟩ := stage3_trace_ext env entries fuel
  rw [ht, countLaunchFails_append, countLaunchFails_of_poll_matched hall]
  simp

lemma stage3_no_apply (env : Env) (entries : List SnapEntry) (fuel : Nat) :
    ∀ x ∈ (stage3 env entries fuel).trace, ∀ h ok, x ≠ Event.applyGeom h ok := by
  obtain ⟨t2, ht2, hall2⟩ := stage2_trace_ext env entries
  obtain ⟨t3, ht3, hall3⟩ := stage3_trace_ext env entries fuel
  intro x hx h ok
  rw [ht3, ht2] at hx
  rcases List.mem_append.mp hx with hx | hx
  · rcases List.mem_append.mp hx with hx | hx
    · obtain ⟨hw, rfl⟩ := stage1_trace env entries x hx
      simp
    · obtain ⟨p, okl, rfl⟩ := hall2 x hx
      simp
  · rcases hall3 x hx with ⟨hw, rfl⟩ | rfl <;> simp

lemma stage3_applyFails (env : Env) (entries : List SnapEntry) (fuel : Nat) :
    countApplyFails (stage3 env entries fuel).trace = 0 :=
  countApplyFails_of_no_apply (stage3_no_apply env entries fuel)

lemma launchAll_HInv (env : Env) (es : List SnapEntry) (i : Nat) (st : RState)
    (hst : HInv st) : HInv (launchAll env es i st) := by
  obtain ⟨_, h2, h3, _⟩ := launchAll_fields env es i st
  unfold HInv at hst ⊢
  rw [h2, h3]
  exact hst

lemma launchAll_MInv (env : Env) (es : List SnapEntry) (i : Nat) (st : RState)
    (hst : MInv st) : MInv (launchAll env es i st) := by
  obtain ⟨_, h2, _, _⟩ := launchAll_fields env es i st
  obtain ⟨t, ht, _⟩ := launchAll_trace env es i st
  unfold MInv at hst ⊢
  rw [h2, ht]
  intro x hx
  exact List.mem_append.mpr (Or.inl (hst x hx))

lemma stage3_HInv (env : Env) (entries : List SnapEntry) (fuel : Nat) :
    HInv (stage3 env entries fuel) := by
  have h0 : HInv ⟨0, [], [], [], 0, []⟩ := by
    refine ⟨List.nodup_nil, ?_, List.nodup_nil⟩
    intro x hx
    simp at hx
  exact pollLoop_HInv env fuel _
    (launchAll_HInv env _ 0 _ (phase1_HInv env entries _ h0))

lemma stage3_MInv (env : Env) (entries : List SnapEntry) (fuel : Nat) :
    MInv (stage3 env entries fuel) := by
  have h0 : MInv ⟨0, [], [], [], 0, []⟩ := by
    intro x hx
    simp at hx
  exact pollLoop_MInv env fuel _
    (launchAll_MInv env _ 0 _ (phase1_MInv env entries _ h0))

lemma restore_restored_def (env : Env) (entries : List SnapEntry) (fuel : Nat) :
    (restore_session env entries fuel).restored
      = (applyAll env (stage3 env entries fuel).to_restore 0).1 := rfl

lemma restore_skipped_def (env : Env) (entries : List SnapEntry) (fuel : Nat) :
    (restore_session env entries fuel).skipped
      = (stage3 env entries fuel).skipped +
          (stage3 env entries fuel).remaining.length +
          (applyAll env (stage3 env entries fuel).to_restore 0).2.1 := rfl

lemma restore_used_def (env : Env) (entries : List SnapEntry) (fuel : Nat) :
    (restore_session env entries fuel).used = (stage3 env entries fuel).used := rfl

lemma restore_to_restore_def (env : Env) (entries : List SnapEntry) (fuel : Nat) :
    (restore_session env entries fuel).to_restore
      = (stage3 env entries fuel).to_restore := rfl

lemma restore_timedOut_def (env : Env) (entries : List SnapEntry) (fuel : Nat) :
    (restore_session env entries fuel).timedOut
      = (stage3 env entries fuel).remaining := rfl

lemma restore_trace_def (env : Env) (entries : List SnapEntry) (fuel : Nat) :
    (restore_session env entries fuel).trace
      = (stage3 env entries fuel).trace ++
          (applyAll env (stage3 env entries fuel).to_restore 0).2.2 := rfl

lemma restore_launchFails (env : Env) (entries : List SnapEntry) (fuel : Nat) :
    countLaunchFails (restore_session env entries fuel).trace
      = countLaunchFails (stage2 env entries).trace := by
  rw [restore_trace_def, countLaunchFails_append, applyAll_launchFails,
    stage3_launchFails]
  simp

lemma restore_applyFails (env : Env) (entries : List SnapEntry) (fuel : Nat) :
    countApplyFails (restore_session env entries fuel).trace
      = (applyAll env (stage3 env entries fuel).to_restore 0).2.1 := by
  rw [restore_trace_def, countApplyFails_append, stage3_applyFails,
    applyAll_applyFails]
  simp

lemma phase1_no_match (env : Env) (es : List SnapEntry) (st : RState)
    (h1 : ∀ e ∈ es, e.path ≠ "")
    (h3 : ∀ k, ∀ w ∈ env.enums k, ∀ e ∈ es, w.path ≠ e.path) :
    (phase1 env es st).remaining = st.remaining ++ es ∧
      (phase1 env es st).to_restore = st.to_restore ∧
      (phase1 env es st).skipped = st.skipped := by
  induction es generalizing st with
  | nil => simp [phase1]
  | cons e es ih =>
      have hp : e.path ≠ "" := h1 e (by simp)
      rw [phase1, if_neg hp]
      have hnone : find_window_by_path (env.enums st.enumIdx) e.path st.used = none :=
        find_eq_none (fun w hw => h3 st.enumIdx w hw e (by simp))
      rw [hnone]
      have hrec := ih
        { st with enumIdx := st.enumIdx + 1, remaining := st.remaining ++ [e] }
        (fun e2 he2 => h1 e2 (by simp [he2]))
        (fun k w hw e2 he2 => h3 k w hw e2 (by simp [he2]))
      refine ⟨?_, hrec.2.1, hrec.2.2⟩
      rw [hrec.1]
      simp

/-! ### Claim theorems for the restore engine -/

/-- C1 (counterexample): as stated, the claim is false.  On the snapshot
consisting of one entry whose path is empty (with any live window set,
all launches and geometry applications succeeding, zero timeout), the
returned counts sum to 1, while the snapshot has 0 non-empty-path
entries: the empty-path entry is counted as skipped but excluded from
the non-empty count. -/
theorem restore_sum_claim_cex :
    ¬ ((restore_session envEmpty [entryEmpty] 0).restored +
        (restore_session envEmpty [entryEmpty] 0).skipped
      = countNonEmptyPath [entryEmpty]) := by decide

/-- C1 (amended): for every snapshot and every run of restore (any live
window set, any launch/geometry outcomes, any timeout fuel), the
returned pair satisfies `restoredCount + skippedCount` = the number of
all entries in the snapshot (empty-path entries are counted as skipped
too) plus the number of failed launch attempts (a launch-failed entry is
counted as skipped at launch time and again counted when it is still
unmatched at the deadline). -/
theorem restore_sum_amended (env : Env) (entries : List SnapEntry)
    (fuel : Nat) :
    (restore_session env entries fuel).restored +
        (restore_session env entries fuel).skipped
      = entries.length +
          countLaunchFails (restore_session env entries fuel).trace := by
  rw [restore_restored_def, restore_skipped_def, restore_launchFails]
  have hap := applyAll_count env (stage3 env entries fuel).to_restore 0
  have hc := stage3_count env entries fuel
  have hs := stage3_skipped env entries fuel
  have hsum := count_empty_add_nonEmpty entries
  omega

/-- C2 (counterexample): as stated, the claim is false.  With one
needs-launch entry (path `"p"`, no live window ever shows it) whose
launch fails, and one polling round before the deadline, the skipped
count is 2, not 1: the launch failure increments it once, the entry
stays in the waiting list (a polling round does run, witnessed by the
`pollRound` event in the trace), and the deadline pass counts it again. -/
theorem launch_fail_single_skip_cex :
    (restore_session envLaunchFail [entryP] 1).skipped = 2 ∧
      ¬ ((restore_session envLaunchFail [entryP] 1).skipped = 1) ∧
      Event.pollRound ∈ (restore_session envLaunchFail [entryP] 1).trace := by
  decide

/-- C2 (amended): when launching a needs-launch entry fails, the skipped
count is incremented exactly once at launch time for that failure, but
the entry is not removed from further consideration: it remains in the
polling list and is counted as skipped a second time when the deadline
passes with it still unmatched.  Formally, in every run the skipped
count decomposes as (empty-path entries) + (failed launches) + (entries
still unmatched at the deadline, launch-failed or not) + (failed
geometry applications). -/
theorem launch_fail_skip_decomposition (env : Env) (entries : List SnapEntry)
    (fuel : Nat) :
    (restore_session env entries fuel).skipped
      = countEmptyPath entries +
          countLaunchFails (restore_session env entries fuel).trace +
          (restore_session env entries fuel).timedOut.length +
          countApplyFails (restore_session env entries fuel).trace := by
  rw [restore_skipped_def, restore_launchFails, restore_applyFails,
    restore_timedOut_def]
  have hs := stage3_skipped env entries fuel
  omega

/-- C3: within a single restore pass, no live window handle is ever
assigned to more than one snapshot entry: the matched handles in
`to_restore` are pairwise distinct (and so is the claimed-handle set),
because the window search never returns a handle that is already
claimed. -/
theorem restore_handles_nodup (env : Env) (entries : List SnapEntry)
    (fuel : Nat) :
    ((restore_session env entries fuel).to_restore.map Prod.fst).Nodup ∧
      (restore_session env entries fuel).used.Nodup := by
  rw [restore_to_restore_def, restore_used_def]
  have h := stage3_HInv env entries fuel
  exact ⟨h.2.2, h.1⟩

/-- C4: if a snapshot has N entries with pairwise-distinct non-empty
paths, no live window matches any of those paths at any point, and every
launch request succeeds, then restore with zero timeout (fuel 0: the
deadline check fails before the first polling round) returns
`restoredCount = 0` and `skippedCount = N`. -/
theorem restore_no_live_windows (env : Env) (entries : List SnapEntry)
    (h1 : ∀ e ∈ entries, e.path ≠ "")
    (_hnd : (entries.map SnapEntry.path).Nodup)
    (h3 : ∀ k, ∀ w ∈ env.enums k, ∀ e ∈ entries, w.path ≠ e.path)
    (h4 : ∀ i, env.launchOk i = true) :
    (restore_session env entries 0).restored = 0 ∧
      (restore_session env entries 0).skipped = entries.length := by
  have hp1 := phase1_no_match env entries ⟨0, [], [], [], 0, []⟩ h1 h3
  have hrem : (stage1 env entries).remaining = entries := by
    rw [stage1, hp1.1]
    simp
  have htr : (stage1 env entries).to_restore = [] := by
    rw [stage1, hp1.2.1]
  have hsk : (stage1 env entries).skipped = 0 := by
    rw [stage1, hp1.2.2]
  have h2f := stage2_fields env entries
  have h2sk : (stage2 env entries).skipped = 0 := by
    rw [stage2, launchAll_all_ok env _ 0 _ h4]
    exact hsk
  have h3eq : stage3 env entries 0 = stage2 env entries := by
    rw [stage3, pollLoop]
  constructor
  · rw [restore_restored_def, h3eq, h2f.2.1, htr]
    rfl
  · rw [restore_skipped_def, h3eq, h2f.2.1, htr, h2f.1, hrem, h2sk]
    simp [applyAll]

/-- Once a polling round has occurred, no launch event follows: the
launch-free suffix and the poll-free prefix of the trace meet at the end
of the launch phase. -/
lemma no_launch_after_poll_split {X Y t1 t2 : List Event}
    (hX : Event.pollRound ∉ X)
    (hY : ∀ p ok, Event.launch p ok ∉ Y)
    (heq : X ++ Y = t1 ++ t2)
    (hpoll : Event.pollRound ∈ t1) :
    ∀ p ok, Event.launch p ok ∉ t2 := by
  rcases List.append_eq_append_iff.mp heq with ⟨a, ht1, hY2⟩ | ⟨c, hX2, ht2⟩
  · intro p ok hmem
    exact hY p ok (by rw [hY2]; exact List.mem_append.mpr (Or.inr hmem))
  · intro p ok hmem
    exact absurd (by rw [hX2]; exact List.mem_append.mpr (Or.inl hpoll)) hX

/-- If the trace is an apply-free prefix `W` followed by a suffix `A`
whose apply events all have matching evidence in `W`, then every split
at an apply event has the matching evidence on its left. -/
lemma matched_before_apply_split {W A t1 t2 : List Event} {h : Nat}
    {ok : Bool}
    (hW : ∀ h2 ok2, Event.applyGeom h2 ok2 ∉ W)
    (hA : Event.applyGeom h ok ∈ A → Event.matched h ∈ W)
    (heq : W ++ A = t1 ++ Event.applyGeom h ok :: t2) :
    Event.matched h ∈ t1 := by
  rcases List.append_eq_append_iff.mp heq with ⟨a, ht1, hA2⟩ | ⟨c, hW2, ht2⟩
  · have hmem : Event.applyGeom h ok ∈ A := by
      rw [hA2]
      exact List.mem_append.mpr (Or.inr (by simp))
    rw [ht1]
    exact List.mem_append.mpr (Or.inl (hA hmem))
  · cases c with
    | nil =>
        have hW3 : W = t1 := by simpa using hW2
        have hA3 : A = Event.applyGeom h ok :: t2 := by simpa using ht2.symm
        have hmem : Event.applyGeom h ok ∈ A := by
          rw [hA3]
          simp
        exact hW3 ▸ hA hmem
    | cons e c2 =>
        rw [List.cons_append] at ht2
        injection ht2 with he ht
        exact absurd
          (by rw [hW2, ← he]; exact List.mem_append.mpr (Or.inr (by simp)) :
            Event.applyGeom h ok ∈ W) (hW h ok)

/-- C4 (witness): a concrete instantiation of the hypotheses, with two
distinct non-empty paths, an environment that never shows a live window,
and launches that always succeed. -/
theorem restore_no_live_windows_witness :
    (restore_session envEmpty [entryA, entryB] 0).restored = 0 ∧
      (restore_session envEmpty [entryA, entryB] 0).skipped = 2 :=
  restore_no_live_windows envEmpty [entryA, entryB]
    (by decide)
    (by decide)
    (fun k w hw => nomatch hw)
    (fun i => rfl)

/-- C9: in every restore call, all launch requests are issued before the
first polling round begins (after any `pollRound` event in the trace, no
`launch` event occurs), and geometry is applied to a window only after
its entry has been matched to a live handle (every `applyGeom` event for
a handle is preceded in the trace by a `matched` event for that same
handle), never to an unmatched entry. -/
theorem restore_temporal_order (env : Env) (entries : List SnapEntry)
    (fuel : Nat) :
    (∀ t1 t2, (restore_session env entries fuel).trace = t1 ++ t2 →
        Event.pollRound ∈ t1 → ∀ p ok, Event.launch p ok ∉ t2) ∧
      (∀ t1 h ok t2,
          (restore_session env entries fuel).trace
            = t1 ++ Event.applyGeom h ok :: t2 →
          Event.matched h ∈ t1) := by
  obtain ⟨t2l, ht2l, hall2⟩ := stage2_trace_ext env entries
  obtain ⟨t3l, ht3l, hall3⟩ := stage3_trace_ext env entries fuel
  have htrace := restore_trace_def env entries fuel
  constructor
  · intro t1 t2 heq hpoll p ok
    have hX : Event.pollRound ∉ (stage2 env entries).trace := by
      intro hmem
      rw [ht2l] at hmem
      rcases List.mem_append.mp hmem with hmem | hmem
      · obtain ⟨hw, hx⟩ := stage1_trace env entries _ hmem
        exact Event.noConfusion hx
      · obtain ⟨pl, okl, hx⟩ := hall2 _ hmem
        exact Event.noConfusion hx
    have hY : ∀ p2 ok2, Event.launch p2 ok2 ∉
        t3l ++ (applyAll env (stage3 env entries fuel).to_restore 0).2.2 := by
      intro p2 ok2 hmem
      rcases List.mem_append.mp hmem with hmem | hmem
      · rcases hall3 _ hmem with ⟨hw, hx⟩ | hx
        · exact Event.noConfusion hx
        · exact Event.noConfusion hx
      · obtain ⟨hw, okx, hx, _⟩ := applyAll_shape env _ 0 _ hmem
        exact Event.noConfusion hx
    have heq2 : (stage2 env entries).trace ++
        (t3l ++ (applyAll env (stage3 env entries fuel).to_restore 0).2.2)
          = t1 ++ t2 := by
      rw [← List.append_assoc, ← ht3l, ← htrace]
      exact heq
    exact no_launch_after_poll_split hX hY heq2 hpoll p ok
  · intro t1 h ok t2 heq
    have hW : ∀ h2 ok2, Event.applyGeom h2 ok2 ∉
        (stage3 env entries fuel).trace := by
      intro h2 ok2 hmem
      exact stage3_no_apply env entries fuel _ hmem h2 ok2 rfl
    have hA : Event.applyGeom h ok ∈
        (applyAll env (stage3 env entries fuel).to_restore 0).2.2 →
        Event.matched h ∈ (stage3 env entries fuel).trace := by
      intro hmem
      obtain ⟨h2, ok2, hx, r, sc, hmem2⟩ := applyAll_shape env _ 0 _ hmem
      injection hx with hx1 hx2
      exact hx1 ▸ stage3_MInv env entries fuel (h2, r, sc) hmem2
    have heq2 : (stage3 env entries fuel).trace ++
        (applyAll env (stage3 env entries fuel).to_restore 0).2.2
          = t1 ++ Event.applyGeom h ok :: t2 := by
      rw [← htrace]
      exact heq
    exact matched_before_apply_split hW hA heq2

/-- C9 (witness): concrete runs exercising both parts.  With one
needs-launch entry and one polling round, the full trace splits with the
`pollRound` event on the left and nothing on the right; with one
already-open entry, the trace splits at its `applyGeom` event and the
`matched` event for handle 7 is on the left. -/
theorem restore_temporal_order_witness :
    (Event.launch "q" true ∉ ([] : List Event)) ∧
      Event.matched 7 ∈ [Event.matched 7] := by
  constructor
  · exact (restore_temporal_order envEmpty [entryP] 1).1
      [Event.launch "p" true, Event.pollRound] [] (by decide) (by decide)
      "q" true
  · exact (restore_temporal_order envLiveP [entryP] 0).2
      [Event.matched 7] 7 true [] (by decide)

/-! ### Claim theorems for the snapshot store -/

/-- C5: for every stored snapshot and path, `remove_path_from_session`
removes all entries whose path equals the given path; if the resulting
entry sequence is empty it deletes the whole stored snapshot and returns
`false`, and a subsequent load of that key fails with NotFound (`none`);
otherwise it persists the reduced snapshot and returns `true`. -/
theorem remove_entry_spec (st : Store) (key path : String) (s : Session)
    (hload : st key = some s) :
    ∃ st2 b, remove_path_from_session st key path = some (st2, b) ∧
      (∀ s2, load_session st2 key = some s2 → ∀ w ∈ s2.windows, w.path ≠ path) ∧
      (if (s.windows.filter (fun w => w.path ≠ path)).isEmpty then
        b = false ∧ load_session st2 key = none
      else
        b = true ∧
          load_session st2 key
            = some { s with
                windows := s.windows.filter (fun w => w.path ≠ path) }) := by
  have hstep : remove_path_from_session st key path
      = if (s.windows.filter (fun w => w.path ≠ path)).isEmpty then
          some (delete_session st key, false)
        else
          some (store_write st key
            { s with windows := s.windows.filter (fun w => w.path ≠ path) },
            true) := by
    unfold remove_path_from_session
    rw [hload]
  by_cases he : (s.windows.filter (fun w => w.path ≠ path)).isEmpty
  · refine ⟨delete_session st key, false, ?_, ?_, ?_⟩
    · rw [hstep, if_pos he]
    · intro s2 hs2
      unfold load_session delete_session at hs2
      simp at hs2
    · rw [if_pos he]
      refine ⟨rfl, ?_⟩
      unfold load_session delete_session
      simp
  · refine ⟨store_write st key
      { s with windows := s.windows.filter (fun w => w.path ≠ path) },
      true, ?_, ?_, ?_⟩
    · rw [hstep, if_neg he]
    · intro s2 hs2
      unfold load_session store_write at hs2
      simp at hs2
      subst hs2
      intro w hw
      have hb := (List.mem_filter.mp hw).2
      simp at hb
      exact hb
    · rw [if_neg he]
      refine ⟨rfl, ?_⟩
      unfold load_session store_write
      simp

/-- C5 (witness): removing the last remaining path of the stored session
deletes the file, returns `false`, and makes the load fail. -/
theorem remove_entry_spec_witness :
    ∃ st2 b, remove_path_from_session storeP "s.json" "p" = some (st2, b) ∧
      (∀ s2, load_session st2 "s.json" = some s2 →
        ∀ w ∈ s2.windows, w.path ≠ "p") ∧
      (if (sessP.windows.filter (fun w => w.path ≠ "p")).isEmpty then
        b = false ∧ load_session st2 "s.json" = none
      else
        b = true ∧
          load_session st2 "s.json"
            = some { sessP with
                windows := sessP.windows.filter (fun w => w.path ≠ "p") }) :=
  remove_entry_spec storeP "s.json" "p" sessP (by decide)

/-- C6: for every stored snapshot, `add_path_to_session` with a path
already present among its entries returns `false` and leaves the store
untouched (no mutation, no persist); with a path not present it appends
one entry (with the defaulted rect `[100, 100, 1000, 600]` and show
state `1` when unspecified), persists, and returns `true`. -/
theorem add_entry_spec (st : Store) (key new_path : String)
    (rect : Option (List Int)) (show_cmd : Option Nat) (s : Session)
    (hload : st key = some s) :
    (new_path ∈ s.windows.map SnapEntry.path →
      add_path_to_session st key new_path rect show_cmd = some (st, false)) ∧
      (new_path ∉ s.windows.map SnapEntry.path →
        add_path_to_session st key new_path rect show_cmd
            = some (store_write st key
                { s with windows := s.windows ++
                    [⟨new_path, rect.getD [100, 100, 1000, 600],
                      show_cmd.getD 1⟩] }, true) ∧
          load_session (store_write st key
              { s with windows := s.windows ++
                  [⟨new_path, rect.getD [100, 100, 1000, 600],
                    show_cmd.getD 1⟩] }) key
            = some { s with windows := s.windows ++
                [⟨new_path, rect.getD [100, 100, 1000, 600],
                  show_cmd.getD 1⟩] }) := by
  have hstep : add_path_to_session st key new_path rect show_cmd
      = if (s.windows.any (fun w => w.path = new_path)) then some (st, false)
        else
          some (store_write st key
            { s with windows := s.windows ++
                [⟨new_path, rect.getD [100, 100, 1000, 600],
                  show_cmd.getD 1⟩] }, true) := by
    unfold add_path_to_session
    rw [hload]
  constructor
  · intro hmem
    have hany : s.windows.any (fun w => w.path = new_path) = true := by
      rw [List.any_eq_true]
      obtain ⟨w, hw, hwp⟩ := List.mem_map.mp hmem
      exact ⟨w, hw, by simp [hwp]⟩
    rw [hstep, hany]
    simp
  · intro hmem
    have hany : s.windows.any (fun w => w.path = new_path) = false := by
      rw [List.any_eq_false]
      intro w hw
      simp
      intro hwp
      exact hmem (List.mem_map.mpr ⟨w, hw, hwp⟩)
    rw [hstep, hany]
    refine ⟨by simp, ?_⟩
    unfold load_session store_write
    simp

/-- C6 (witness): adding the already-present path `"p"` returns `false`
with the store unchanged; adding the absent path `"q"` appends a
defaulted entry and returns `true`. -/
theorem add_entry_spec_witness :
    (add_path_to_session storeP "s.json" "p" none none
        = some (storeP, false)) ∧
      add_path_to_session storeP "s.json" "q" none none
          = some (store_write storeP "s.json"
              { sessP with windows := sessP.windows ++
                  [⟨"q", [100, 100, 1000, 600], 1⟩] }, true) := by
  constructor
  · exact (add_entry_spec storeP "s.json" "p" none none sessP (by decide)).1
      (by decide)
  · exact ((add_entry_spec storeP "s.json" "q" none none sessP (by decide)).2
      (by decide)).1

/-! ### Claim theorems for listing -/

lemma mem_insertBySavedAt (x y : SessionSummary) (l : List SessionSummary) :
    y ∈ insertBySavedAt x l ↔ y = x ∨ y ∈ l := by
  induction l with
  | nil => simp [insertBySavedAt]
  | cons z l ih =>
      rw [insertBySavedAt]
      by_cases hle : x.saved_at ≤ z.saved_at
      · rw [if_pos hle]
        simp only [List.mem_cons, ih]
        tauto
      · rw [if_neg hle]
        simp only [List.mem_cons]

lemma mem_sortBySavedAt (y : SessionSummary) (l : List SessionSummary) :
    y ∈ sortBySavedAt l ↔ y ∈ l := by
  induction l with
  | nil => simp [sortBySavedAt]
  | cons x l ih =>
      rw [sortBySavedAt, mem_insertBySavedAt]
      simp [ih]

/-- C8: for every stored snapshot that parses, `list_sessions` produces
a summary whose `window_count` equals the number of distinct entry paths
and whose `tab_count` equals the total number of entries; consequently
`window_count ≤ tab_count` holds for every summary the listing ever
returns. -/
theorem list_sessions_counts (files : List (String × Option Session)) :
    (∀ key s, (key, some s) ∈ files →
        summarize key s ∈ list_sessions files ∧
          (summarize key s).window_count
            = (s.windows.map SnapEntry.path).toFinset.card ∧
          (summarize key s).tab_count = s.windows.length) ∧
      ∀ sum ∈ list_sessions files, sum.window_count ≤ sum.tab_count := by
  constructor
  · intro key s hmem
    refine ⟨?_, ?_, rfl⟩
    · rw [list_sessions, mem_sortBySavedAt]
      exact List.mem_filterMap.mpr ⟨(key, some s), hmem, rfl⟩
    · exact (List.card_toFinset _).symm
  · intro sum hmem
    rw [list_sessions, mem_sortBySavedAt] at hmem
    obtain ⟨⟨key, os⟩, hmem2, heq⟩ := List.mem_filterMap.mp hmem
    cases os with
    | none => simp at heq
    | some s =>
        simp only [Option.map_some] at heq
        injection heq with heq
        rw [← heq]
        have hle := List.Sublist.length_le
          (List.dedup_sublist (s.windows.map SnapEntry.path))
        simpa [summarize] using hle

/-- C8 (witness): a store with one parsed session whose entries have
paths `"a"`, `"b"`, `"a"`: the summary is listed, has `window_count = 2`
distinct paths, `tab_count = 3` entries, and the inequality holds. -/
theorem list_sessions_counts_witness :
    (summarize "k" sessABA ∈ list_sessions [("k", some sessABA)] ∧
        (summarize "k" sessABA).window_count
          = (sessABA.windows.map SnapEntry.path).toFinset.card ∧
        (summarize "k" sessABA).tab_count = sessABA.windows.length) ∧
      (summarize "k" sessABA).window_count
        ≤ (summarize "k" sessABA).tab_count := by
  constructor
  · exact (list_sessions_counts [("k", some sessABA)]).1 "k" sessABA (by decide)
  · exact (list_sessions_counts [("k", some sessABA)]).2 _
      ((list_sessions_counts [("k", some sessABA)]).1 "k" sessABA (by decide)).1

/-! ### Claim theorems for capture deduplication -/

lemma dedupGo_eq_firstOcc (ws : List WindowRecord) (seen : List String) :
    dedupGo ws seen
      = firstOccurrenceDedup (ws.filter (fun w => w.path ∉ seen)) := by
  induction ws generalizing seen with
  | nil => simp [dedupGo, firstOccurrenceDedup]
  | cons w ws ih =>
      by_cases hs : w.path ∈ seen
      · have hp : (decide (w.path ∉ seen)) = false := by simpa using hs
        rw [dedupGo, if_pos hs, ih]
        congr 1
        rw [List.filter_cons]
        rw [hp]
        simp
      · have hp : (decide (w.path ∉ seen)) = true := by simpa using hs
        rw [dedupGo, if_neg hs, ih]
        rw [List.filter_cons, hp]
        simp only [if_true]
        rw [firstOccurrenceDedup, List.filter_filter]
        congr 1
        congr 1
        apply List.filter_congr
        intro v hv
        simp only [List.mem_cons, not_or, Bool.decide_and, decide_not]

lemma save_entries_eq_firstOcc (ws : List WindowRecord) :
    save_entries ws = firstOccurrenceDedup ws := by
  rw [save_entries, dedupGo_eq_firstOcc]
  congr 1
  apply List.filter_eq_self.mpr
  intro w hw
  simp

lemma mem_firstOcc (l : List WindowRecord) :
    ∀ e ∈ firstOccurrenceDedup l, ∃ w, w ∈ l ∧ e = toEntry w := by
  induction l using firstOccurrenceDedup.induct with
  | case1 => simp [firstOccurrenceDedup]
  | case2 w ws ih =>
      intro e he
      rw [firstOccurrenceDedup] at he
      rcases List.mem_cons.mp he with he | he
      · exact ⟨w, by simp, he⟩
      · obtain ⟨v, hv, hev⟩ := ih e he
        exact ⟨v, List.mem_cons.mpr (Or.inr (List.mem_of_mem_filter hv)), hev⟩

lemma firstOcc_paths_nodup (l : List WindowRecord) :
    ((firstOccurrenceDedup l).map SnapEntry.path).Nodup := by
  induction l using firstOccurrenceDedup.induct with
  | case1 => simp [firstOccurrenceDedup]
  | case2 w ws ih =>
      rw [firstOccurrenceDedup]
      simp only [List.map_cons, List.nodup_cons]
      refine ⟨?_, ih⟩
      intro hc
      obtain ⟨e, he, hpe⟩ := List.mem_map.mp hc
      obtain ⟨v, hv, rfl⟩ := mem_firstOcc _ e he
      have hvp := (List.mem_filter.mp hv).2
      simp at hvp
      exact hvp ((by simpa [toEntry] using hpe : v.path = w.path))

/-- C7: for every enumerated live window sequence, the persisted entry
list of `save_session` contains exactly one entry per distinct path,
keeps the first-seen occurrence of each path (with its rect and show
state), and preserves the enumeration order of first occurrences: it
equals the canonical first-occurrence deduplication, and its path list
has no duplicates. -/
theorem capture_dedup (ws : List WindowRecord) :
    save_entries ws = firstOccurrenceDedup ws ∧
      ((save_entries ws).map SnapEntry.path).Nodup := by
  refine ⟨save_entries_eq_firstOcc ws, ?_⟩
  rw [save_entries_eq_firstOcc]
  exact firstOcc_paths_nodup ws

/-! ### Claim theorems for storage-key derivation -/

/-- C10: the storage key derived by `save_session` for a user-given name
is not injective in the name: any two names with the same stripped
subsequence of allowed characters (alphanumeric, space, hyphen,
underscore) map to the same `.json` filename, so saving under the second
name overwrites the snapshot stored under the first (a later load at the
shared key returns the second payload); and a name with no allowed
characters at all yields the empty key, filename `".json"`. -/
theorem storage_key_not_injective (n1 n2 : String) :
    (sanitizeName n1 = sanitizeName n2 →
        filenameFor n1 = filenameFor n2) ∧
      (sanitizeName n1 = sanitizeName n2 →
        ∀ (st : Store) (sa1 sa2 : String)
          (ws1 ws2 : List WindowRecord),
          load_session (save_session (save_session st n1 sa1 ws1) n2 sa2 ws2)
              (filenameFor n1)
            = some ⟨n2, sa2, save_entries ws2⟩) ∧
      (n1.data.filter allowedChar = [] → filenameFor n1 = ".json") := by
  refine ⟨?_, ?_, ?_⟩
  · intro hsan
    rw [filenameFor, filenameFor, hsan]
  · intro hsan st sa1 sa2 ws1 ws2
    have hkey : filenameFor n1 = filenameFor n2 := by
      rw [filenameFor, filenameFor, hsan]
    unfold save_session load_session store_write
    rw [hkey]
    simp
  · intro hnone
    rw [filenameFor, sanitizeName, hnone]
    decide

/-- C10 (witness): the distinct names `"a/b"` and `"a?b"` sanitize to
the same key `"ab.json"`, the second save overwrites the first, and the
name `"!!"` (no allowed characters) maps to the filename `".json"`. -/
theorem storage_key_not_injective_witness :
    ("a/b" ≠ "a?b") ∧
      filenameFor "a/b" = filenameFor "a?b" ∧
      load_session
          (save_session (save_session (fun _ => none) "a/b" "t1" [])
            "a?b" "t2" [])
          (filenameFor "a/b")
        = some ⟨"a?b", "t2", save_entries []⟩ ∧
      filenameFor "!!" = ".json" := by
  refine ⟨by decide, ?_, ?_, ?_⟩
  · exact (storage_key_not_injective "a/b" "a?b").1 (by decide)
  · exact (storage_key_not_injective "a/b" "a?b").2.1 (by decide)
      (fun _ => none) "t1" "t2" [] []
  · exact (storage_key_not_injective "!!" "x").2.2 (by decide)
